import Mathlib

/-!
Verification of the power-distribution network synthesis pipeline in
`backend/mst.py` (candidate graph construction, minimum arborescence
post-processing, dead-branch pruning, input parsing and result
summarization).

The Python code is shallowly embedded:

* A `networkx.DiGraph` is modelled by `NetGraph`: a finite set of node
  indices plus a finite set of directed edges (ordered pairs).  The
  builder never calls `add_node`, so nodes are exactly the endpoints
  accumulated by `add_edge`; edge attributes (`weight`/`length`/`voltage`)
  are not stored on edges because in the builder they are functions of the
  endpoints alone (`length = dist u v`, `voltage = "low"` exactly for the
  pole-to-terminal edges, i.e. exactly when the target is a terminal), and
  the summarizer below recovers them that way.
* Real-valued distances become rationals (`ℚ`); the trigonometric
  haversine function itself is embedded over `ℝ` separately for the
  numerical-safety analysis.
* `nx.descendants` (reachability) is computed as the saturation of a
  one-step successor expansion; the saturation lemmas below prove the
  fuelled iteration reaches the closure, so the definition agrees with
  reachability.
* The `while removed:` loop of `prune_dead_end_pole_branches` is run on
  fuel `nodes.card + 1`; `prunePass_progress` shows a pass that removes
  something strictly shrinks the node set, hence (`pruneLoopFuel_fix`)
  this fuel always suffices and the loop exits through its natural
  `removed = False` test, exactly as the unbounded Python loop does.
-/

/-- Model of `networkx.DiGraph`: node set plus directed edge set. -/
structure NetGraph where
  nodes : Finset ℕ
  edges : Finset (ℕ × ℕ)
deriving DecidableEq

namespace NetGraph

/-- The empty graph `nx.DiGraph()`. -/
def empty : NetGraph := ⟨∅, ∅⟩

/-- `DG.add_edge u v`: inserts the edge and (implicitly) both endpoints. -/
def addEdge (G : NetGraph) (u v : ℕ) : NetGraph :=
  ⟨insert u (insert v G.nodes), insert (u, v) G.edges⟩

/-- `G.remove_node x` (after the explicit `remove_edge(pred, x)` calls of the
Python code): deletes the node and every incident edge.  The Python pruner
first removes the incoming edges one by one and then calls `remove_node`,
whose net effect is exactly this. -/
def removeNode (G : NetGraph) (x : ℕ) : NetGraph :=
  ⟨G.nodes.erase x, G.edges.filter (fun e => e.1 ≠ x ∧ e.2 ≠ x)⟩

/-- `G.out_degree n`. -/
def outDegree (G : NetGraph) (v : ℕ) : ℕ :=
  (G.edges.filter (fun e => e.1 = v)).card

/-- The edges whose target is `v` (so `G.in_degree v = (inEdges G v).card`). -/
def inEdges (G : NetGraph) (v : ℕ) : Finset (ℕ × ℕ) :=
  G.edges.filter (fun e => e.2 = v)

/-- `{u for u, v in G.edges()} | {v for u, v in G.edges()}`. -/
def usedNodes (G : NetGraph) : Finset ℕ :=
  G.edges.image Prod.fst ∪ G.edges.image Prod.snd

/-- One-step successors of a set of nodes. -/
def succsOf (G : NetGraph) (s : Finset ℕ) : Finset ℕ :=
  (G.edges.filter (fun e => e.1 ∈ s)).image Prod.snd

/-- One expansion step of the reachability closure. -/
def reachStep (G : NetGraph) (s : Finset ℕ) : Finset ℕ :=
  s ∪ succsOf G s

/-- `nx.descendants G v`: all nodes reachable from `v` by a nonempty path.
Computed by saturating the one-step expansion; `G.edges.card` iterations are
proved sufficient below (`descendants_fixpoint`). -/
def descendants (G : NetGraph) (v : ℕ) : Finset ℕ :=
  (reachStep G)^[G.edges.card] (succsOf G {v})

/-- No node lies on a directed cycle. -/
def Acyclic (G : NetGraph) : Prop := ∀ v ∈ G.nodes, v ∉ descendants G v

/-- All edge endpoints are nodes (an invariant `networkx` maintains). -/
def WellFormed (G : NetGraph) : Prop :=
  ∀ e ∈ G.edges, e.1 ∈ G.nodes ∧ e.2 ∈ G.nodes

instance : DecidablePred (NetGraph.Acyclic) := fun G => by
  unfold NetGraph.Acyclic; infer_instance

instance : DecidablePred (NetGraph.WellFormed) := fun G => by
  unfold NetGraph.WellFormed; infer_instance

end NetGraph

/-! ### Distance-window constants (metres), from the top of `backend/mst.py` -/

def MIN_CANDIDATE_SEPARATION : ℚ := 10
def MIN_POLE_TO_TERMINAL : ℚ := 10
def MAX_POLE_TO_TERMINAL : ℚ := 100
def MIN_POLE_TO_POLE : ℚ := 10
def MAX_POLE_TO_POLE : ℚ := 150

/-! ### `build_directed_graph_for_arborescence`

The distance matrix is a function `ℕ → ℕ → ℚ` (the Python code passes a
dense matrix indexed by node index).  The `costs` dict is unused by the
Python function body (the weight adjustment is a TODO there), so it is not a
parameter here. -/

/-- The ordered pairs `(pole_indices[i], pole_indices[j])` for `i < j`,
as enumerated by the two nested `range` loops. -/
def polePairs : List ℕ → List (ℕ × ℕ)
  | [] => []
  | p :: rest => (rest.map (fun q => (p, q))) ++ polePairs rest

/-- `build_directed_graph_for_arborescence(source_idx, terminal_indices,
pole_indices, dist_matrix, costs)`: pole→terminal service drops, both
directions of each pole–pole span, and source→pole trunk edges, each gated
by its `(0.1, max]` distance window. -/
def build_directed_graph_for_arborescence
    (source_idx : ℕ) (terminal_indices pole_indices : List ℕ)
    (dist : ℕ → ℕ → ℚ) : NetGraph :=
  let dg0 := NetGraph.empty
  -- Directed: poles → terminals (service drops)
  let dg1 := pole_indices.foldl (fun g p =>
    terminal_indices.foldl (fun g h =>
      if 1/10 < dist p h ∧ dist p h ≤ MAX_POLE_TO_TERMINAL then g.addEdge p h else g) g) dg0
  -- Bidirectional pole ↔ pole (undirected spans)
  let dg2 := (polePairs pole_indices).foldl (fun g pq =>
    if 1/10 < dist pq.1 pq.2 ∧ dist pq.1 pq.2 ≤ MAX_POLE_TO_POLE then
      (g.addEdge pq.1 pq.2).addEdge pq.2 pq.1
    else g) dg1
  -- Directed: source → poles (main trunk)
  pole_indices.foldl (fun g p =>
    if 1/10 < dist source_idx p ∧ dist source_idx p ≤ MAX_POLE_TO_POLE then
      g.addEdge source_idx p
    else g) dg2

/-! ### `prune_dead_end_pole_branches`

`pole_indices` and `terminal_indices` are passed as lists, as in Python
(only membership tests are performed on them). -/

/-- The body of `for leaf in leaves:` — the accumulator carries the graph
and the `removed` flag.  A leaf that is a pole and whose
`descendants ∪ {leaf}` contains no terminal is removed. -/
def pruneStep (pole_indices terminal_indices : List ℕ)
    (acc : NetGraph × Bool) (leaf : ℕ) : NetGraph × Bool :=
  if leaf ∈ pole_indices then
    if ¬ ∃ d ∈ NetGraph.descendants acc.1 leaf ∪ {leaf}, d ∈ terminal_indices then
      (acc.1.removeNode leaf, true)
    else acc
  else acc

/-- One iteration of the `while removed:` body: freeze the current leaves
(`out_degree == 0` nodes, enumerated in a canonical order) and process each.
Returns the new graph and the `removed` flag. -/
def prunePass (pole_indices terminal_indices : List ℕ) (G : NetGraph) :
    NetGraph × Bool :=
  ((G.nodes.filter (fun n => G.outDegree n = 0)).sort (· ≤ ·)).foldl
    (pruneStep pole_indices terminal_indices) (G, false)

/-- The `while removed:` loop, run on explicit fuel.  `pruneLoopFuel_fix`
below proves that with fuel `G.nodes.card + 1` the loop always reaches the
`removed = False` exit, so the fuel never truncates the Python loop. -/
def pruneLoopFuel (pole_indices terminal_indices : List ℕ) :
    ℕ → NetGraph → NetGraph
  | 0, g => g
  | fuel + 1, g =>
    let p := prunePass pole_indices terminal_indices g
    if p.2 then pruneLoopFuel pole_indices terminal_indices fuel p.1 else p.1

/-- `prune_dead_end_pole_branches(arbo, pole_indices, terminal_indices)`.
(The Python `arbo.copy()` is a no-op in this pure model.) -/
def prune_dead_end_pole_branches (arbo : NetGraph)
    (pole_indices terminal_indices : List ℕ) : NetGraph :=
  pruneLoopFuel pole_indices terminal_indices (arbo.nodes.card + 1) arbo
/-! ### `haversine_meters`, embedded over `ℝ`

Used for the numerical-safety analysis of the inner square roots.  `atan2`
is `math.atan2`, expressed through the complex argument. -/

noncomputable def radians (x : ℝ) : ℝ := x * (Real.pi / 180)

/-- The haversine intermediate
`a = sin²(Δφ/2) + cos φ₁ · cos φ₂ · sin²(Δλ/2)` of `backend/mst.py`. -/
noncomputable def haversine_a (lat1 lng1 lat2 lng2 : ℝ) : ℝ :=
  Real.sin (radians (lat2 - lat1) / 2) ^ 2 +
    Real.cos (radians lat1) * Real.cos (radians lat2) *
      Real.sin (radians (lng2 - lng1) / 2) ^ 2

/-- `math.atan2 y x`. -/
noncomputable def atan2 (y x : ℝ) : ℝ := Complex.arg ⟨x, y⟩

/-- `haversine_meters(lat1, lng1, lat2, lng2)`:
`R * 2 * atan2(sqrt(a), sqrt(1 - a))` with `R = 6371000`.  Note the code
takes `sqrt(1 - a)` directly, with no clamping of `a` into `[0, 1]`. -/
noncomputable def haversine_meters (lat1 lng1 lat2 lng2 : ℝ) : ℝ :=
  6371000 *
    (2 * atan2 (Real.sqrt (haversine_a lat1 lng1 lat2 lng2))
      (Real.sqrt (1 - haversine_a lat1 lng1 lat2 lng2)))

/-! ### `parse_input`

A request point is a dict with dynamic fields; `lat?`/`lng?` are `none`
when the field is missing or not convertible by `float(...)` (the
`KeyError`/`TypeError`/`ValueError` cases of the Python code collapse to
the same `raise`).  Coordinates are rationals. -/

/-- One point of the request body. -/
structure PointIn where
  lat? : Option ℚ
  lng? : Option ℚ
  name? : Option String
deriving DecidableEq

/-- The `costs` dict: each key may be absent (defaults applied at use). -/
structure Costs where
  poleCost? : Option ℚ
  lowVoltageCostPerMeter? : Option ℚ
  highVoltageCostPerMeter? : Option ℚ
deriving DecidableEq

def SOURCE_KEYWORDS : List String :=
  ["power source", "powersource", "source", "substation", "main source",
   "primary", "generator", "grid tie", "utility"]

/-- `str.lower()` (ASCII, as the keyword matching needs). -/
def strLower (s : String) : String := String.mk (s.toList.map Char.toLower)

/-- Whether `pat` is an initial segment of `s`. -/
def startsWithChars : List Char → List Char → Bool
  | _, [] => true
  | [], _ :: _ => false
  | a :: as, b :: bs => a == b && startsWithChars as bs

/-- Whether `pat` occurs contiguously in `s` (Python `pat in s`). -/
def hasSubChars : List Char → List Char → Bool
  | [], pat => startsWithChars [] pat
  | a :: rest, pat => startsWithChars (a :: rest) pat || hasSubChars rest pat

def strContainsSub (s pat : String) : Bool := hasSubChars s.toList pat.toList

/-- `any(kw in name_lower for kw in SOURCE_KEYWORDS) or "source" in
name_lower`. -/
def isSourceName (name : String) : Bool :=
  SOURCE_KEYWORDS.any (fun kw => strContainsSub (strLower name) kw) ||
    strContainsSub (strLower name) "source"

/-- `str(raw_name).strip()` when present, else `f"Location {i+1}"`. -/
def pointName (i : ℕ) (p : PointIn) : String :=
  match p.name? with
  | some n => n.trim
  | none => "Location " ++ toString (i + 1)

/-- The `for i, p in enumerate(points):` loop of `parse_input`, carrying the
accumulated coordinates, names and detected source index. -/
def parseLoop : List PointIn → ℕ → List (ℚ × ℚ) → List String → Option ℕ →
    Except String (List (ℚ × ℚ) × List String × Option ℕ)
  | [], _, coordsRev, namesRev, src =>
    .ok (coordsRev.reverse, namesRev.reverse, src)
  | p :: rest, i, coordsRev, namesRev, src =>
    match p.lat?, p.lng? with
    | some lat, some lng =>
      if ¬(-90 ≤ lat ∧ lat ≤ 90) ∨ ¬(-180 ≤ lng ∧ lng ≤ 180) then
        .error ("Point " ++ toString (i + 1) ++ " has invalid coordinates")
      else
        let name := pointName i p
        if isSourceName name ∧ src = none then
          parseLoop rest (i + 1) ((lat, lng) :: coordsRev)
            ("Power ".append "Source" :: namesRev) (some i)
        else
          parseLoop rest (i + 1) ((lat, lng) :: coordsRev)
            (name :: namesRev) src
    | _, _ =>
      .error ("Point " ++ toString (i + 1) ++ " missing or invalid lat lng")

/-- `parse_input(request)`: validation, source detection, terminal index
assignment. -/
def parse_input (points : List PointIn) (costs : Costs) :
    Except String (List (ℚ × ℚ) × List ℕ × ℕ × List String × Costs) :=
  if points.length < 2 then .error "At least 2 points required"
  else
    match parseLoop points 0 [] [] none with
    | .error msg => .error msg
    | .ok (coords, names, src?) =>
      let source_idx := src?.getD 0
      let names2 := match src? with
        | some _ => names
        | none => names.set 0 ("Power ".append "Source")
      let terminal_indices :=
        (List.range coords.length).filter (fun i => i ≠ source_idx)
      .ok (coords, terminal_indices, source_idx, names2, costs)

/-- A point `parse_input` must reject: missing/unconvertible `lat`/`lng`, or
a coordinate out of range. -/
def badPoint (p : PointIn) : Bool :=
  match p.lat?, p.lng? with
  | some la, some ln =>
    decide (¬(-90 ≤ la ∧ la ≤ 90) ∨ ¬(-180 ≤ ln ∧ ln ≤ 180))
  | _, _ => true

/-! ### Result summarization (the tail of `compute_mst`) -/

/-- Python `round(x, 2)` idealized over `ℚ`: round half to even at the
second decimal.  (On binary floats Python additionally suffers
representation error; all concrete evaluations below stay clear of ties and
of values whose decimal/binary roundings differ.) -/
def roundHalfEven (x : ℚ) : ℤ :=
  let f := ⌊x⌋
  let frac := x - f
  if frac < 1/2 then f
  else if 1/2 < frac then f + 1
  else if Even f then f else f + 1

def round2 (q : ℚ) : ℚ := ((roundHalfEven (q * 100) : ℤ) : ℚ) / 100

/-- The five cost fields computed at the end of `compute_mst`. -/
structure CostFields where
  poleCostEstimate : ℚ
  lowWireCostEstimate : ℚ
  highWireCostEstimate : ℚ
  totalWireCostEstimate : ℚ
  totalCostEstimate : ℚ
deriving DecidableEq

/-- Lines 536–546 and 578–582 of `backend/mst.py`: per-unit costs (with the
`dict.get` defaults), the four estimates, and their 2-decimal roundings. -/
def costSummary (numPoles : ℕ) (totalLow totalHigh : ℚ) (costs : Costs) :
    CostFields :=
  let pole_cost := costs.poleCost?.getD 1500
  let low_cost_m := costs.lowVoltageCostPerMeter?.getD 8
  let high_cost_m := costs.highVoltageCostPerMeter?.getD 25
  let pole_cost_est := (numPoles : ℚ) * pole_cost
  let low_wire_est := totalLow * low_cost_m
  let high_wire_est := totalHigh * high_cost_m
  let total_wire_est := low_wire_est + high_wire_est
  let total_cost_est := pole_cost_est + total_wire_est
  ⟨round2 pole_cost_est, round2 low_wire_est, round2 high_wire_est,
    round2 total_wire_est, round2 total_cost_est⟩

/-- One entry of the returned `nodes` list. -/
structure NodeOut where
  index : ℕ
  lat : ℚ
  lng : ℚ
  name : String
  type : String
deriving DecidableEq

/-- `node_names = dict(enumerate(original_names))` overridden by
`node_names[pole_i] = f"Pole {idx}"` for the used poles (1-based). -/
def node_names (original_names : List String) (used_pole_indices : List ℕ)
    (i : ℕ) : Option String :=
  match used_pole_indices.findIdx? (fun j => j == i) with
  | some k => some ("Pole " ++ toString (k + 1))
  | none => original_names[i]?

/-- `"source" if i == source_idx else "terminal" if i < pole_start_idx else
"pole"`. -/
def nodeType (i source_idx pole_start_idx : ℕ) : String :=
  if i = source_idx then "source"
  else if i < pole_start_idx then "terminal"
  else "pole"

/-- The non-debug `return_nodes` list comprehension over
`sorted(used_nodes)`. -/
def returnNodesUsed (used : Finset ℕ) (source_idx pole_start_idx : ℕ)
    (original_names : List String) (used_pole_indices : List ℕ)
    (extended_coords : List (ℚ × ℚ)) : List NodeOut :=
  (used.sort (· ≤ ·)).map (fun i =>
    ⟨i, (extended_coords.getD i (0, 0)).1, (extended_coords.getD i (0, 0)).2,
      (node_names original_names used_pole_indices i).getD
        ("Unused " ++ toString i),
      nodeType i source_idx pole_start_idx⟩)

/-- The debug `return_nodes` list comprehension over
`enumerate(extended_coords)`: every extended coordinate, named
`Candidate {i}`, typed `"pole"`. -/
def returnNodesDebug (extended_coords : List (ℚ × ℚ)) : List NodeOut :=
  extended_coords.enum.map (fun ic =>
    ⟨ic.1, ic.2.1, ic.2.2, "Candidate " ++ toString ic.1, "pole"⟩)

/-- A deterministic enumeration of an edge set (models the deterministic
iteration order of `mst.edges(data=True)`; no verified claim depends on the
order): sort the pairing-function codes, then decode. -/
def edgeList (s : Finset (ℕ × ℕ)) : List (ℕ × ℕ) :=
  ((s.image (fun e => Nat.pair e.1 e.2)).sort (· ≤ ·)).map Nat.unpair

/-- One entry of the returned `edges` list. -/
structure EdgeOut where
  startLat : ℚ
  startLng : ℚ
  startName : String
  endLat : ℚ
  endLng : ℚ
  endName : String
  lengthMeters : ℚ
  voltage : String
deriving DecidableEq

/-- The structured result of `compute_mst` (the `debug` block inlined as
`debug*` fields). -/
structure ResultModel where
  edges : List EdgeOut
  nodes : List NodeOut
  totalLowVoltageMeters : ℚ
  totalHighVoltageMeters : ℚ
  numPolesUsed : ℕ
  poleCostEstimate : ℚ
  lowWireCostEstimate : ℚ
  highWireCostEstimate : ℚ
  totalWireCostEstimate : ℚ
  totalCostEstimate : ℚ
  debugSourceIndex : ℕ
  debugSourceName : String
  debugOriginalPoints : ℕ
  debugCandidatesGenerated : ℕ
  debugCandidatesUsed : ℕ
deriving DecidableEq

/-- `compute_mst(request)`.  The external collaborators are parameters:
`candGen` is `generate_voronoi_candidates` (scipy's Voronoi diagram, out of
scope), `solver` is `nx.minimum_spanning_arborescence` (third-party,
may raise), `distf` the geodesic metric used to fill `dist_matrix` (the
Python code uses `haversine_meters`, whose trigonometry has no computable
rational form; claims about this pipeline hold for every `distf`).  Edge
`length`/`voltage` attributes are recovered from the endpoints as the
builder assigned them (`length = dist u v`; `voltage = "low"` iff the
target is a terminal, which in this pipeline characterizes the
pole→terminal edges since terminal and pole index ranges are disjoint). -/
def compute_mst (candGen : List (ℚ × ℚ) → List (ℚ × ℚ))
    (solver : NetGraph → Except String NetGraph)
    (distf : ℚ × ℚ → ℚ × ℚ → ℚ)
    (points : List PointIn) (costsIn : Costs) (debug : Bool) :
    Except String ResultModel :=
  match parse_input points costsIn with
  | .error msg => .error msg
  | .ok (coords, terminal_indices, source_idx, original_names, costs) =>
    let candidates := candGen coords
    let extended_coords := coords ++ candidates
    let pole_start_idx := coords.length
    let pole_indices := (List.range extended_coords.length).filter
      (fun i => pole_start_idx ≤ i)
    let dist : ℕ → ℕ → ℚ := fun i j =>
      distf (extended_coords.getD i (0, 0)) (extended_coords.getD j (0, 0))
    let DG := build_directed_graph_for_arborescence source_idx
      terminal_indices pole_indices dist
    match solver DG with
    | .error msg => .error msg
    | .ok arbo =>
      let mst := prune_dead_end_pole_branches arbo pole_indices
        terminal_indices
      let used := NetGraph.usedNodes mst
      let used_pole_indices := pole_indices.filter (fun i => i ∈ used)
      let names := node_names original_names used_pole_indices
      let edgesOut := (edgeList mst.edges).map (fun e =>
        (⟨(extended_coords.getD e.1 (0, 0)).1,
          (extended_coords.getD e.1 (0, 0)).2,
          (names e.1).getD ("Node " ++ toString e.1),
          (extended_coords.getD e.2 (0, 0)).1,
          (extended_coords.getD e.2 (0, 0)).2,
          (names e.2).getD ("Node " ++ toString e.2),
          round2 (dist e.1 e.2),
          if e.2 ∈ terminal_indices then "low" else "high"⟩ : EdgeOut))
      let total_low :=
        ∑ e in mst.edges.filter (fun e => e.2 ∈ terminal_indices), dist e.1 e.2
      let total_high :=
        ∑ e in mst.edges.filter (fun e => e.2 ∉ terminal_indices), dist e.1 e.2
      let cf := costSummary used_pole_indices.length total_low total_high costs
      let return_nodes := if debug then returnNodesDebug extended_coords
        else returnNodesUsed used source_idx pole_start_idx original_names
          used_pole_indices extended_coords
      .ok ⟨edgesOut, return_nodes, round2 total_low, round2 total_high,
        used_pole_indices.length, cf.poleCostEstimate, cf.lowWireCostEstimate,
        cf.highWireCostEstimate, cf.totalWireCostEstimate,
        cf.totalCostEstimate, source_idx,
        (names source_idx).getD ("Power ".append "Source"), coords.length,
        candidates.length, used_pole_indices.length⟩

/-! ### Reachability closure lemmas

These justify that the fuelled `descendants` really computes the closure of
one-step successor expansion (hence `nx.descendants`): the iterate is
inflationary, monotone, contained in the set of edge targets, saturates
within `G.edges.card` steps, and is the least successor-closed set
containing the direct successors. -/

namespace NetGraph

lemma succsOf_subset_targets (G : NetGraph) (s : Finset ℕ) :
    succsOf G s ⊆ G.edges.image Prod.snd := by
  intro x hx
  rcases Finset.mem_image.mp hx with ⟨e, he, rfl⟩
  exact Finset.mem_image_of_mem _ (Finset.mem_of_mem_filter e he)

lemma succsOf_mono_set (G : NetGraph) {s t : Finset ℕ} (h : s ⊆ t) :
    succsOf G s ⊆ succsOf G t := by
  intro x hx
  rcases Finset.mem_image.mp hx with ⟨e, he, rfl⟩
  rcases Finset.mem_filter.mp he with ⟨heG, hes⟩
  exact Finset.mem_image_of_mem _ (Finset.mem_filter.mpr ⟨heG, h hes⟩)

lemma succsOf_mono_graph {G H : NetGraph} (hGH : G.edges ⊆ H.edges)
    (s : Finset ℕ) : succsOf G s ⊆ succsOf H s := by
  intro x hx
  rcases Finset.mem_image.mp hx with ⟨e, he, rfl⟩
  rcases Finset.mem_filter.mp he with ⟨heG, hes⟩
  exact Finset.mem_image_of_mem _ (Finset.mem_filter.mpr ⟨hGH heG, hes⟩)

lemma subset_reachStep (G : NetGraph) (s : Finset ℕ) : s ⊆ reachStep G s :=
  Finset.subset_union_left

lemma reachStep_mono_set (G : NetGraph) {s t : Finset ℕ} (h : s ⊆ t) :
    reachStep G s ⊆ reachStep G t :=
  Finset.union_subset_union h (succsOf_mono_set G h)

lemma reachStep_subset_targets (G : NetGraph) {s : Finset ℕ}
    (h : s ⊆ G.edges.image Prod.snd) :
    reachStep G s ⊆ G.edges.image Prod.snd :=
  Finset.union_subset h (succsOf_subset_targets G s)

lemma iterate_reachStep_subset_targets (G : NetGraph) {s : Finset ℕ}
    (h : s ⊆ G.edges.image Prod.snd) (n : ℕ) :
    (reachStep G)^[n] s ⊆ G.edges.image Prod.snd := by
  induction n generalizing s with
  | zero => simpa using h
  | succ n ih =>
    rw [Function.iterate_succ_apply]
    exact ih (reachStep_subset_targets G h)

lemma subset_iterate_reachStep (G : NetGraph) (s : Finset ℕ) (n : ℕ) :
    s ⊆ (reachStep G)^[n] s := by
  induction n with
  | zero => simp
  | succ n ih =>
    rw [Function.iterate_succ_apply']
    exact ih.trans (subset_reachStep G _)

lemma iterate_reachStep_mono_fuel (G : NetGraph) (s : Finset ℕ) {m n : ℕ}
    (h : m ≤ n) : (reachStep G)^[m] s ⊆ (reachStep G)^[n] s := by
  obtain ⟨k, rfl⟩ := Nat.exists_eq_add_of_le h
  calc (reachStep G)^[m] s
      ⊆ (reachStep G)^[k] ((reachStep G)^[m] s) := subset_iterate_reachStep G _ k
    _ = (reachStep G)^[m + k] s := by rw [Nat.add_comm, Function.iterate_add_apply]

lemma iterate_reachStep_mono_set (G : NetGraph) {s t : Finset ℕ}
    (h : s ⊆ t) (n : ℕ) : (reachStep G)^[n] s ⊆ (reachStep G)^[n] t := by
  induction n generalizing s t with
  | zero => simpa using h
  | succ n ih =>
    rw [Function.iterate_succ_apply, Function.iterate_succ_apply]
    exact ih (reachStep_mono_set G h)

lemma iterate_reachStep_mono_graph {G H : NetGraph} (hGH : G.edges ⊆ H.edges)
    (s : Finset ℕ) (n : ℕ) :
    (reachStep G)^[n] s ⊆ (reachStep H)^[n] s := by
  induction n generalizing s with
  | zero => simp
  | succ n ih =>
    rw [Function.iterate_succ_apply, Function.iterate_succ_apply]
    refine (ih (reachStep G s)).trans (iterate_reachStep_mono_set H ?_ n)
    exact Finset.union_subset_union (by rfl) (succsOf_mono_graph hGH s)

lemma iterate_reachStep_stable (G : NetGraph) (s : Finset ℕ) {k : ℕ}
    (h : (reachStep G)^[k + 1] s = (reachStep G)^[k] s) {m : ℕ} (hm : k ≤ m) :
    (reachStep G)^[m] s = (reachStep G)^[k] s := by
  obtain ⟨j, rfl⟩ := Nat.exists_eq_add_of_le hm
  induction j with
  | zero => rfl
  | succ j ih =>
    have : k + (j + 1) = (k + j) + 1 := by omega
    rw [this, Function.iterate_succ_apply', ih (by omega),
      ← Function.iterate_succ_apply' (reachStep G) k s, h]

lemma iterate_reachStep_card_grow (G : NetGraph) (s : Finset ℕ) :
    ∀ k : ℕ, (∀ j < k, (reachStep G)^[j + 1] s ≠ (reachStep G)^[j] s) →
      k ≤ ((reachStep G)^[k] s).card := by
  intro k
  induction k with
  | zero => intro _; exact Nat.zero_le _
  | succ k ih =>
    intro h
    have hk : k ≤ ((reachStep G)^[k] s).card := ih (fun j hj => h j (by omega))
    have hsub : (reachStep G)^[k] s ⊂ (reachStep G)^[k + 1] s :=
      Finset.ssubset_iff_subset_ne.mpr
        ⟨iterate_reachStep_mono_fuel G s (by omega),
          fun heq => h k (by omega) heq.symm⟩
    have := Finset.card_lt_card hsub
    omega

lemma exists_stable_iterate (G : NetGraph) {s : Finset ℕ}
    (hs : s ⊆ G.edges.image Prod.snd) :
    ∃ k ≤ (G.edges.image Prod.snd).card,
      (reachStep G)^[k + 1] s = (reachStep G)^[k] s := by
  by_contra hcon
  push_neg at hcon
  set N := (G.edges.image Prod.snd).card with hN
  have hgrow : N + 1 ≤ ((reachStep G)^[N + 1] s).card := by
    refine iterate_reachStep_card_grow G s (N + 1) (fun j hj => ?_)
    exact hcon j (by omega)
  have hsubt : ((reachStep G)^[N + 1] s).card ≤ N :=
    Finset.card_le_card (iterate_reachStep_subset_targets G hs (N + 1))
  omega

lemma descendants_fixpoint (G : NetGraph) (v : ℕ) :
    reachStep G (descendants G v) = descendants G v := by
  have hs : succsOf G {v} ⊆ G.edges.image Prod.snd := succsOf_subset_targets G _
  obtain ⟨k, hkN, hstab⟩ := exists_stable_iterate G hs
  have hkE : k ≤ G.edges.card := hkN.trans Finset.card_image_le
  unfold descendants
  rw [iterate_reachStep_stable G _ hstab hkE,
    ← Function.iterate_succ_apply' (reachStep G) k _, hstab]

lemma succsOf_descendants_subset (G : NetGraph) (v : ℕ) :
    succsOf G (descendants G v) ⊆ descendants G v := by
  conv_rhs => rw [← descendants_fixpoint G v]
  exact Finset.subset_union_right

lemma succsOf_singleton_subset_descendants (G : NetGraph) (v : ℕ) :
    succsOf G {v} ⊆ descendants G v :=
  subset_iterate_reachStep G _ _

lemma descendants_minimal (G : NetGraph) (v : ℕ) {C : Finset ℕ}
    (hinit : succsOf G {v} ⊆ C) (hclosed : succsOf G C ⊆ C) :
    descendants G v ⊆ C := by
  unfold descendants
  generalize G.edges.card = n
  induction n with
  | zero => simpa using hinit
  | succ n ih =>
    rw [Function.iterate_succ_apply']
    exact Finset.union_subset ih ((succsOf_mono_set G ih).trans hclosed)

lemma descendants_trans (G : NetGraph) {x y : ℕ}
    (hy : y ∈ descendants G x) : descendants G y ⊆ descendants G x := by
  refine descendants_minimal G y ?_ (succsOf_descendants_subset G x)
  exact (succsOf_mono_set G (Finset.singleton_subset_iff.mpr hy)).trans
    (succsOf_descendants_subset G x)

lemma descendants_subset_targets (G : NetGraph) (v : ℕ) :
    descendants G v ⊆ G.edges.image Prod.snd :=
  iterate_reachStep_subset_targets G (succsOf_subset_targets G _) _

lemma exists_inEdge_of_mem_descendants (G : NetGraph) {v d : ℕ}
    (hd : d ∈ descendants G v) : ∃ e ∈ G.edges, e.2 = d := by
  rcases Finset.mem_image.mp (descendants_subset_targets G v hd) with ⟨e, he, hev⟩
  exact ⟨e, he, hev⟩

lemma descendants_mono_subgraph {P G : NetGraph} (h : P.edges ⊆ G.edges)
    (v : ℕ) : descendants P v ⊆ descendants G v := by
  have h1 : (reachStep P)^[P.edges.card] (succsOf P {v})
      ⊆ (reachStep G)^[P.edges.card] (succsOf P {v}) :=
    iterate_reachStep_mono_graph h _ _
  have h2 : (reachStep G)^[P.edges.card] (succsOf P {v})
      ⊆ (reachStep G)^[P.edges.card] (succsOf G {v}) :=
    iterate_reachStep_mono_set G (succsOf_mono_graph h _) _
  have h3 : (reachStep G)^[P.edges.card] (succsOf G {v})
      ⊆ (reachStep G)^[G.edges.card] (succsOf G {v}) :=
    iterate_reachStep_mono_fuel G _ (Finset.card_le_card h)
  exact (h1.trans h2).trans h3

lemma succsOf_empty (G : NetGraph) : succsOf G ∅ = ∅ := by
  unfold succsOf
  simp

lemma descendants_eq_empty_of_outDegree_zero (G : NetGraph) {v : ℕ}
    (h : G.outDegree v = 0) : descendants G v = ∅ := by
  have hstart : succsOf G {v} = ∅ := by
    unfold succsOf
    have : G.edges.filter (fun e => e.1 ∈ ({v} : Finset ℕ))
        = G.edges.filter (fun e => e.1 = v) := by
      apply Finset.filter_congr
      intro e _
      simp
    rw [this, Finset.card_eq_zero.mp h]
    simp
  unfold descendants
  rw [hstart]
  generalize G.edges.card = n
  induction n with
  | zero => simp
  | succ n ih =>
    rw [Function.iterate_succ_apply', ih]
    unfold reachStep
    rw [succsOf_empty]
    simp

lemma exists_sink_aux (G : NetGraph) (hwf : G.WellFormed) (hacy : G.Acyclic) :
    ∀ n (x : ℕ), (descendants G x).card ≤ n → x ∈ G.nodes →
      ∃ s ∈ insert x (descendants G x), s ∈ G.nodes ∧ G.outDegree s = 0 := by
  intro n
  induction n with
  | zero =>
    intro x hcard hx
    by_cases hdeg : G.outDegree x = 0
    · exact ⟨x, Finset.mem_insert_self x _, hx, hdeg⟩
    · exfalso
      have hne : (G.edges.filter (fun e => e.1 = x)).Nonempty :=
        Finset.card_ne_zero.mp (by simpa [outDegree] using hdeg)
      rcases hne with ⟨e, he⟩
      rcases Finset.mem_filter.mp he with ⟨heG, hex⟩
      have hy : e.2 ∈ descendants G x := by
        refine succsOf_singleton_subset_descendants G x ?_
        exact Finset.mem_image_of_mem _
          (Finset.mem_filter.mpr ⟨heG, by simp [hex]⟩)
      have : (descendants G x).card = 0 := Nat.le_zero.mp hcard
      rw [Finset.card_eq_zero.mp this] at hy
      simp at hy
  | succ n ih =>
    intro x hcard hx
    by_cases hdeg : G.outDegree x = 0
    · exact ⟨x, Finset.mem_insert_self x _, hx, hdeg⟩
    · have hne : (G.edges.filter (fun e => e.1 = x)).Nonempty :=
        Finset.card_ne_zero.mp (by simpa [outDegree] using hdeg)
      rcases hne with ⟨e, he⟩
      rcases Finset.mem_filter.mp he with ⟨heG, hex⟩
      have hy : e.2 ∈ descendants G x := by
        refine succsOf_singleton_subset_descendants G x ?_
        exact Finset.mem_image_of_mem _
          (Finset.mem_filter.mpr ⟨heG, by simp [hex]⟩)
      have hynode : e.2 ∈ G.nodes := (hwf e heG).2
      have hyy : e.2 ∉ descendants G e.2 := hacy e.2 hynode
      have hss : descendants G e.2 ⊂ descendants G x :=
        Finset.ssubset_iff_of_subset (descendants_trans G hy) |>.mpr
          ⟨e.2, hy, hyy⟩
      have hcard2 : (descendants G e.2).card ≤ n := by
        have := Finset.card_lt_card hss
        omega
      rcases ih e.2 hcard2 hynode with ⟨s, hs, hsn, hsd⟩
      rcases Finset.mem_insert.mp hs with rfl | hs
      · exact ⟨e.2, Finset.mem_insert_of_mem hy, hsn, hsd⟩
      · exact ⟨s, Finset.mem_insert_of_mem (descendants_trans G hy hs), hsn, hsd⟩

lemma exists_sink (G : NetGraph) (hwf : G.WellFormed) (hacy : G.Acyclic)
    {x : ℕ} (hx : x ∈ G.nodes) :
    ∃ s ∈ insert x (descendants G x), s ∈ G.nodes ∧ G.outDegree s = 0 :=
  exists_sink_aux G hwf hacy (descendants G x).card x (le_refl _) hx

end NetGraph

/-! ### Invariants of the pruning pass -/

namespace NetGraph

lemma removeNode_nodes_subset (G : NetGraph) (x : ℕ) :
    (G.removeNode x).nodes ⊆ G.nodes := Finset.erase_subset x G.nodes

lemma removeNode_edges_subset (G : NetGraph) (x : ℕ) :
    (G.removeNode x).edges ⊆ G.edges := Finset.filter_subset _ _

lemma outDegree_le_of_edges_subset {G H : NetGraph} (h : G.edges ⊆ H.edges)
    (v : ℕ) : G.outDegree v ≤ H.outDegree v :=
  Finset.card_le_card (fun e he => by
    rcases Finset.mem_filter.mp he with ⟨heG, hev⟩
    exact Finset.mem_filter.mpr ⟨h heG, hev⟩)

lemma inEdges_subset_of_edges_subset {G H : NetGraph} (h : G.edges ⊆ H.edges)
    (v : ℕ) : G.inEdges v ⊆ H.inEdges v := fun e he => by
  rcases Finset.mem_filter.mp he with ⟨heG, hev⟩
  exact Finset.mem_filter.mpr ⟨h heG, hev⟩

/-- Removing a node with no outgoing edges leaves the incoming edges of
every other node untouched. -/
lemma inEdges_removeNode (G : NetGraph) {a v : ℕ} (hva : v ≠ a)
    (hdeg : G.outDegree a = 0) : (G.removeNode a).inEdges v = G.inEdges v := by
  apply Finset.ext
  intro e
  constructor
  · intro he
    rcases Finset.mem_filter.mp he with ⟨he1, he2⟩
    rcases Finset.mem_filter.mp he1 with ⟨heG, _⟩
    exact Finset.mem_filter.mpr ⟨heG, he2⟩
  · intro he
    rcases Finset.mem_filter.mp he with ⟨heG, he2⟩
    have h1 : e.1 ≠ a := by
      intro h1
      have : e ∈ G.edges.filter (fun e => e.1 = a) :=
        Finset.mem_filter.mpr ⟨heG, h1⟩
      rw [Finset.card_eq_zero.mp hdeg] at this
      simp at this
    have h2 : e.2 ≠ a := by
      intro h2
      exact hva (by rw [← he2, h2])
    exact Finset.mem_filter.mpr
      ⟨Finset.mem_filter.mpr ⟨heG, ⟨h1, h2⟩⟩, he2⟩

end NetGraph

/-- Each `pruneStep` either leaves the accumulator unchanged or removes a
leaf that is a pole and not a terminal, setting the `removed` flag. -/
lemma pruneStep_cases (ps ts : List ℕ) (acc : NetGraph × Bool) (a : ℕ) :
    pruneStep ps ts acc a = acc ∨
      (pruneStep ps ts acc a = (acc.1.removeNode a, true) ∧ a ∈ ps ∧ a ∉ ts) := by
  unfold pruneStep
  by_cases h1 : a ∈ ps
  · rw [if_pos h1]
    by_cases h2 : ∃ d ∈ NetGraph.descendants acc.1 a ∪ {a}, d ∈ ts
    · rw [if_neg (not_not_intro h2)]
      exact Or.inl rfl
    · rw [if_pos h2]
      refine Or.inr ⟨rfl, h1, fun hats => h2 ⟨a, ?_, hats⟩⟩
      exact Finset.mem_union_right _ (Finset.mem_singleton_self a)
  · rw [if_neg h1]
    exact Or.inl rfl

/-- Once the `removed` flag is set it stays set. -/
lemma foldPrune_flag_mono (ps ts : List ℕ) :
    ∀ (l : List ℕ) (g : NetGraph),
      (l.foldl (pruneStep ps ts) (g, true)).2 = true := by
  intro l
  induction l with
  | nil => intro g; rfl
  | cons a l ih =>
    intro g
    rcases pruneStep_cases ps ts (g, true) a with h | ⟨h, _, _⟩ <;>
      simp only [List.foldl_cons, h] <;> exact ih _

/-- Master invariant of one pass body: over any list of frozen leaves
(nodes with no outgoing edge), the fold only shrinks the graph, never
touches an incoming edge of a surviving node, removes only poles that are
not terminals, and preserves well-formedness. -/
lemma foldPrune_master (ps ts : List ℕ) :
    ∀ (l : List ℕ) (g : NetGraph) (r : Bool),
      (∀ x ∈ l, g.outDegree x = 0) →
      (l.foldl (pruneStep ps ts) (g, r)).1.nodes ⊆ g.nodes ∧
      (l.foldl (pruneStep ps ts) (g, r)).1.edges ⊆ g.edges ∧
      (∀ v ∈ (l.foldl (pruneStep ps ts) (g, r)).1.nodes,
        (l.foldl (pruneStep ps ts) (g, r)).1.inEdges v = g.inEdges v) ∧
      (∀ x ∈ g.nodes, x ∉ (l.foldl (pruneStep ps ts) (g, r)).1.nodes →
        x ∈ ps ∧ x ∉ ts) ∧
      (g.WellFormed → (l.foldl (pruneStep ps ts) (g, r)).1.WellFormed) := by
  intro l
  induction l with
  | nil =>
    intro g r _
    exact ⟨by rfl, by rfl, fun v _ => rfl, fun x hx hx2 => absurd hx hx2,
      fun h => h⟩
  | cons a l ih =>
    intro g r hdeg
    rcases pruneStep_cases ps ts (g, r) a with h | ⟨h, hap, hat⟩
    · simp only [List.foldl_cons, h]
      exact ih g r (fun x hx => hdeg x (List.mem_cons_of_mem a hx))
    · simp only [List.foldl_cons, h]
      have hdega : g.outDegree a = 0 := hdeg a (List.mem_cons_self a l)
      set g' := g.removeNode a with hg'
      have hdeg' : ∀ x ∈ l, g'.outDegree x = 0 := fun x hx =>
        Nat.le_zero.mp (le_trans
          (NetGraph.outDegree_le_of_edges_subset
            (NetGraph.removeNode_edges_subset g a) x)
          (Nat.le_of_eq (hdeg x (List.mem_cons_of_mem a hx))))
      rcases ih g' true hdeg' with ⟨hn, he, hin, hrem, hwf⟩
      refine ⟨hn.trans (NetGraph.removeNode_nodes_subset g a),
        he.trans (NetGraph.removeNode_edges_subset g a), ?_, ?_, ?_⟩
      · intro v hv
        have hv' : v ∈ g'.nodes := hn hv
        have hva : v ≠ a := (Finset.mem_erase.mp hv').1
        rw [hin v hv, hg', NetGraph.inEdges_removeNode g hva hdega]
      · intro x hx hx2
        by_cases hx' : x ∈ g'.nodes
        · exact hrem x hx' hx2
        · have : x = a := by
            by_contra hxa
            exact hx' (Finset.mem_erase.mpr ⟨hxa, hx⟩)
          exact this ▸ ⟨hap, hat⟩
      · intro hwfg
        refine hwf ?_
        intro e he'
        rcases Finset.mem_filter.mp he' with ⟨heG, hne⟩
        exact ⟨Finset.mem_erase.mpr ⟨hne.1, (hwfg e heG).1⟩,
          Finset.mem_erase.mpr ⟨hne.2, (hwfg e heG).2⟩⟩

/-- Over a duplicate-free list of current nodes, the fold either changes
nothing (and leaves the flag alone) or sets the flag and strictly shrinks
the node set.  This is exactly why the Python `while removed:` loop
terminates. -/
lemma foldPrune_progress (ps ts : List ℕ) :
    ∀ (l : List ℕ) (g : NetGraph) (r : Bool), l.Nodup →
      (∀ x ∈ l, x ∈ g.nodes) →
      l.foldl (pruneStep ps ts) (g, r) = (g, r) ∨
        ((l.foldl (pruneStep ps ts) (g, r)).2 = true ∧
          (l.foldl (pruneStep ps ts) (g, r)).1.nodes.card < g.nodes.card) := by
  intro l
  induction l with
  | nil => intro g r _ _; exact Or.inl rfl
  | cons a l ih =>
    intro g r hnd hmem
    rcases List.nodup_cons.mp hnd with ⟨hanl, hndl⟩
    rcases pruneStep_cases ps ts (g, r) a with h | ⟨h, _, _⟩
    · rw [List.foldl_cons, h]
      exact ih g r hndl (fun x hx => hmem x (List.mem_cons_of_mem a hx))
    · rw [List.foldl_cons, h]
      have hag : a ∈ g.nodes := hmem a (List.mem_cons_self a l)
      have hcard : (g.removeNode a).nodes.card < g.nodes.card := by
        have h1 : (g.removeNode a).nodes = g.nodes.erase a := rfl
        rw [h1, Finset.card_erase_of_mem hag]
        have h2 := Finset.card_pos.mpr ⟨a, hag⟩
        omega
      have hmem' : ∀ x ∈ l, x ∈ (g.removeNode a).nodes := by
        intro x hx
        refine Finset.mem_erase.mpr ⟨?_, hmem x (List.mem_cons_of_mem a hx)⟩
        intro hxa
        exact hanl (hxa ▸ hx)
      rcases ih (g.removeNode a) true hndl hmem' with h2 | ⟨h2a, h2b⟩
      · rw [h2]
        exact Or.inr ⟨rfl, hcard⟩
      · exact Or.inr ⟨h2a, h2b.trans hcard⟩

/-- If the pass body finishes with the flag still down, nothing was removed
and every pole among the frozen leaves had a terminal in
`descendants ∪ {leaf}`. -/
lemma foldPrune_flag_false (ps ts : List ℕ) :
    ∀ (l : List ℕ) (g : NetGraph),
      (l.foldl (pruneStep ps ts) (g, false)).2 = false →
      l.foldl (pruneStep ps ts) (g, false) = (g, false) ∧
        ∀ x ∈ l, x ∈ ps →
          ∃ d ∈ NetGraph.descendants g x ∪ {x}, d ∈ ts := by
  intro l
  induction l with
  | nil =>
    intro g _
    exact ⟨rfl, fun x hx => absurd hx (List.not_mem_nil x)⟩
  | cons a l ih =>
    intro g h
    by_cases hap : a ∈ ps
    · by_cases hex : ∃ d ∈ NetGraph.descendants g a ∪ {a}, d ∈ ts
      · have hstep : pruneStep ps ts (g, false) a = (g, false) := by
          unfold pruneStep
          rw [if_pos hap, if_neg (not_not_intro hex)]
        rw [List.foldl_cons, hstep] at h ⊢
        rcases ih g h with ⟨heq, hall⟩
        refine ⟨heq, fun x hx => ?_⟩
        rcases List.mem_cons.mp hx with rfl | hx
        · exact fun _ => hex
        · exact hall x hx
      · have hstep : pruneStep ps ts (g, false) a = (g.removeNode a, true) := by
          unfold pruneStep
          rw [if_pos hap, if_pos hex]
        rw [List.foldl_cons, hstep, foldPrune_flag_mono ps ts l _] at h
        exact absurd h (by simp)
    · have hstep : pruneStep ps ts (g, false) a = (g, false) := by
        unfold pruneStep
        rw [if_neg hap]
      rw [List.foldl_cons, hstep] at h ⊢
      rcases ih g h with ⟨heq, hall⟩
      refine ⟨heq, fun x hx => ?_⟩
      rcases List.mem_cons.mp hx with rfl | hx
      · exact fun hxp => absurd hxp hap
      · exact hall x hx

/-- A pass either returns the graph unchanged with the flag down, or sets
the flag and strictly shrinks the node set. -/
lemma prunePass_progress (ps ts : List ℕ) (G : NetGraph) :
    prunePass ps ts G = (G, false) ∨
      ((prunePass ps ts G).2 = true ∧
        (prunePass ps ts G).1.nodes.card < G.nodes.card) := by
  unfold prunePass
  refine foldPrune_progress ps ts _ G false (Finset.sort_nodup _ _) ?_
  intro x hx
  exact Finset.mem_of_mem_filter x
    ((Finset.mem_sort (α := ℕ) (· ≤ ·)).mp hx)

/-- Structural invariants of one full pass. -/
lemma prunePass_master (ps ts : List ℕ) (G : NetGraph) :
    (prunePass ps ts G).1.nodes ⊆ G.nodes ∧
    (prunePass ps ts G).1.edges ⊆ G.edges ∧
    (∀ v ∈ (prunePass ps ts G).1.nodes,
      (prunePass ps ts G).1.inEdges v = G.inEdges v) ∧
    (∀ x ∈ G.nodes, x ∉ (prunePass ps ts G).1.nodes → x ∈ ps ∧ x ∉ ts) ∧
    (G.WellFormed → (prunePass ps ts G).1.WellFormed) := by
  unfold prunePass
  refine foldPrune_master ps ts _ G false ?_
  intro x hx
  exact (Finset.mem_filter.mp ((Finset.mem_sort (α := ℕ) (· ≤ ·)).mp hx)).2

/-- Unfolding equation of the loop at positive fuel. -/
lemma pruneLoopFuel_succ (ps ts : List ℕ) (fuel : ℕ) (G : NetGraph) :
    pruneLoopFuel ps ts (fuel + 1) G =
      if (prunePass ps ts G).2 then
        pruneLoopFuel ps ts fuel (prunePass ps ts G).1
      else (prunePass ps ts G).1 := rfl

/-- If a full pass finishes with the flag down, it changed nothing, and
every pole leaf of the graph had a terminal in `descendants ∪ {leaf}`. -/
lemma prunePass_flag_false (ps ts : List ℕ) (G : NetGraph)
    (h : (prunePass ps ts G).2 = false) :
    prunePass ps ts G = (G, false) ∧
      ∀ x ∈ G.nodes, G.outDegree x = 0 → x ∈ ps →
        ∃ d ∈ NetGraph.descendants G x ∪ {x}, d ∈ ts := by
  unfold prunePass at h ⊢
  rcases foldPrune_flag_false ps ts _ G h with ⟨heq, hall⟩
  refine ⟨heq, fun x hx hdeg hxp => ?_⟩
  refine hall x ?_ hxp
  rw [Finset.mem_sort (α := ℕ) (· ≤ ·)]
  exact Finset.mem_filter.mpr ⟨hx, hdeg⟩

/-- Loop-level master invariant: for any fuel, the pruned graph is a
subgraph, incoming edges of surviving nodes are untouched, only poles that
are not terminals are removed, and well-formedness is preserved. -/
lemma pruneLoopFuel_master (ps ts : List ℕ) :
    ∀ (fuel : ℕ) (G : NetGraph),
      (pruneLoopFuel ps ts fuel G).nodes ⊆ G.nodes ∧
      (pruneLoopFuel ps ts fuel G).edges ⊆ G.edges ∧
      (∀ v ∈ (pruneLoopFuel ps ts fuel G).nodes,
        (pruneLoopFuel ps ts fuel G).inEdges v = G.inEdges v) ∧
      (∀ x ∈ G.nodes, x ∉ (pruneLoopFuel ps ts fuel G).nodes →
        x ∈ ps ∧ x ∉ ts) ∧
      (G.WellFormed → (pruneLoopFuel ps ts fuel G).WellFormed) := by
  intro fuel
  induction fuel with
  | zero =>
    intro G
    exact ⟨by rfl, by rfl, fun v _ => rfl, fun x hx hx2 => absurd hx hx2,
      fun h => h⟩
  | succ fuel ih =>
    intro G
    rcases prunePass_master ps ts G with ⟨hn, he, hin, hrem, hwf⟩
    rw [pruneLoopFuel_succ]
    by_cases hflag : (prunePass ps ts G).2 = true
    · rw [if_pos hflag]
      rcases ih (prunePass ps ts G).1 with ⟨ihn, ihe, ihin, ihrem, ihwf⟩
      refine ⟨ihn.trans hn, ihe.trans he, ?_, ?_, fun h => ihwf (hwf h)⟩
      · intro v hv
        rw [ihin v hv, hin v (ihn hv)]
      · intro x hx hx2
        by_cases hx' : x ∈ (prunePass ps ts G).1.nodes
        · exact ihrem x hx' hx2
        · exact hrem x hx hx'
    · rw [if_neg hflag]
      exact ⟨hn, he, hin, hrem, hwf⟩

/-- With fuel exceeding the node count, the loop always reaches its natural
`removed = False` exit: the result is a fixpoint of the pass. -/
lemma pruneLoopFuel_fix (ps ts : List ℕ) :
    ∀ (fuel : ℕ) (G : NetGraph), G.nodes.card < fuel →
      prunePass ps ts (pruneLoopFuel ps ts fuel G) =
        (pruneLoopFuel ps ts fuel G, false) := by
  intro fuel
  induction fuel with
  | zero => intro G h; omega
  | succ fuel ih =>
    intro G h
    rw [pruneLoopFuel_succ]
    by_cases hflag : (prunePass ps ts G).2 = true
    · rw [if_pos hflag]
      rcases prunePass_progress ps ts G with heq | ⟨_, hcard⟩
      · rw [heq] at hflag
        simp at hflag
      · exact ih (prunePass ps ts G).1 (by omega)
    · rw [if_neg hflag]
      have heq : prunePass ps ts G = (G, false) := by
        rcases prunePass_progress ps ts G with heq | ⟨h2, _⟩
        · exact heq
        · exact absurd h2 hflag
      rw [heq]
      exact heq

/-- The pruner's result is a fixpoint of the pass. -/
lemma prune_fix (G : NetGraph) (ps ts : List ℕ) :
    prunePass ps ts (prune_dead_end_pole_branches G ps ts) =
      (prune_dead_end_pole_branches G ps ts, false) :=
  pruneLoopFuel_fix ps ts (G.nodes.card + 1) G (Nat.lt_succ_self _)

/-- Master invariant of `prune_dead_end_pole_branches`. -/
lemma prune_master (G : NetGraph) (ps ts : List ℕ) :
    (prune_dead_end_pole_branches G ps ts).nodes ⊆ G.nodes ∧
    (prune_dead_end_pole_branches G ps ts).edges ⊆ G.edges ∧
    (∀ v ∈ (prune_dead_end_pole_branches G ps ts).nodes,
      (prune_dead_end_pole_branches G ps ts).inEdges v = G.inEdges v) ∧
    (∀ x ∈ G.nodes, x ∉ (prune_dead_end_pole_branches G ps ts).nodes →
      x ∈ ps ∧ x ∉ ts) ∧
    (G.WellFormed → (prune_dead_end_pole_branches G ps ts).WellFormed) :=
  pruneLoopFuel_master ps ts (G.nodes.card + 1) G

/-- In the pruner's output, a pole that is not a terminal never sits at a
leaf: some outgoing edge remains. -/
lemma prune_no_dead_pole_leaf (G : NetGraph) (ps ts : List ℕ)
    {x : ℕ} (hx : x ∈ (prune_dead_end_pole_branches G ps ts).nodes)
    (hxp : x ∈ ps) (hxt : x ∉ ts)
    (hdeg : (prune_dead_end_pole_branches G ps ts).outDegree x = 0) :
    False := by
  have hfix := prune_fix G ps ts
  have hflag : (prunePass ps ts (prune_dead_end_pole_branches G ps ts)).2
      = false := by rw [hfix]
  rcases prunePass_flag_false ps ts _ hflag with ⟨_, hall⟩
  rcases hall x hx hdeg hxp with ⟨d, hd, hdt⟩
  rcases Finset.mem_union.mp hd with hd | hd
  · rw [NetGraph.descendants_eq_empty_of_outDegree_zero _ hdeg] at hd
    simp at hd
  · rw [Finset.mem_singleton.mp hd] at hdt
    exact hxt hdt

/-! ### Shape of the candidate graph's edges -/

lemma polePairs_mem : ∀ (l : List ℕ) (pq : ℕ × ℕ), pq ∈ polePairs l →
    pq.1 ∈ l ∧ pq.2 ∈ l := by
  intro l
  induction l with
  | nil => intro pq h; simp [polePairs] at h
  | cons p rest ih =>
    intro pq h
    rcases List.mem_append.mp h with h | h
    · rcases List.mem_map.mp h with ⟨q, hq, rfl⟩
      exact ⟨List.mem_cons_self p rest, List.mem_cons_of_mem p hq⟩
    · rcases ih pq h with ⟨h1, h2⟩
      exact ⟨List.mem_cons_of_mem p h1, List.mem_cons_of_mem p h2⟩

/-- Generic bound on edges accumulated by a fold whose step only ever adds
edges described by `S`. -/
lemma foldl_edges_bound {α : Type} (step : NetGraph → α → NetGraph)
    (S : α → ℕ × ℕ → Prop)
    (hstep : ∀ g x e, e ∈ (step g x).edges → e ∈ g.edges ∨ S x e) :
    ∀ (l : List α) (g : NetGraph) (e : ℕ × ℕ),
      e ∈ (l.foldl step g).edges → e ∈ g.edges ∨ ∃ x ∈ l, S x e := by
  intro l
  induction l with
  | nil => intro g e h; exact Or.inl h
  | cons a l ih =>
    intro g e h
    rcases ih (step g a) e h with h2 | ⟨x, hx, hS⟩
    · rcases hstep g a e h2 with h3 | h3
      · exact Or.inl h3
      · exact Or.inr ⟨a, List.mem_cons_self a l, h3⟩
    · exact Or.inr ⟨x, List.mem_cons_of_mem a hx, hS⟩

lemma mem_addEdge_edges {G : NetGraph} {u v : ℕ} {e : ℕ × ℕ}
    (h : e ∈ (G.addEdge u v).edges) : e ∈ G.edges ∨ e = (u, v) := by
  rcases Finset.mem_insert.mp h with h | h
  · exact Or.inr h
  · exact Or.inl h

/-- Every edge the builder creates is pole→terminal, pole→pole
(either direction of a listed pair), or source→pole. -/
lemma build_edges_shape (source_idx : ℕ)
    (terminal_indices pole_indices : List ℕ) (dist : ℕ → ℕ → ℚ) :
    ∀ e ∈ (build_directed_graph_for_arborescence source_idx terminal_indices
        pole_indices dist).edges,
      (e.1 ∈ pole_indices ∧ e.2 ∈ terminal_indices) ∨
      (e.1 ∈ pole_indices ∧ e.2 ∈ pole_indices) ∨
      (e.1 = source_idx ∧ e.2 ∈ pole_indices) := by
  intro e he
  simp only [build_directed_graph_for_arborescence] at he
  -- peel the source→pole fold
  rcases foldl_edges_bound _ (fun p e => e = (source_idx, p))
    (fun g p e h => by
      by_cases hc : 1/10 < dist source_idx p ∧ dist source_idx p ≤ MAX_POLE_TO_POLE
      · rw [if_pos hc] at h
        exact mem_addEdge_edges h
      · rw [if_neg hc] at h
        exact Or.inl h)
    pole_indices _ e he with h2 | ⟨p, hp, hS⟩
  · -- peel the pole↔pole fold
    rcases foldl_edges_bound _
      (fun pq e => e = (pq.1, pq.2) ∨ e = (pq.2, pq.1))
      (fun g pq e h => by
        by_cases hc : 1/10 < dist pq.1 pq.2 ∧ dist pq.1 pq.2 ≤ MAX_POLE_TO_POLE
        · rw [if_pos hc] at h
          rcases mem_addEdge_edges h with h | h
          · rcases mem_addEdge_edges h with h | h
            · exact Or.inl h
            · exact Or.inr (Or.inl h)
          · exact Or.inr (Or.inr h)
        · rw [if_neg hc] at h
          exact Or.inl h)
      (polePairs pole_indices) _ e h2 with h3 | ⟨pq, hpq, hS⟩
    · -- peel the nested pole→terminal folds
      rcases foldl_edges_bound _
        (fun p e => e.1 = p ∧ e.2 ∈ terminal_indices)
        (fun g p e h => by
          rcases foldl_edges_bound _ (fun t e => e = (p, t))
            (fun g2 t e2 h2 => by
              by_cases hc : 1/10 < dist p t ∧ dist p t ≤ MAX_POLE_TO_TERMINAL
              · rw [if_pos hc] at h2
                exact mem_addEdge_edges h2
              · rw [if_neg hc] at h2
                exact Or.inl h2)
            terminal_indices g e h with h3 | ⟨t, ht, rfl⟩
          · exact Or.inl h3
          · exact Or.inr ⟨rfl, ht⟩)
        pole_indices NetGraph.empty e h3 with h4 | ⟨p, hp, h5, h6⟩
      · simp [NetGraph.empty] at h4
      · exact Or.inl ⟨h5 ▸ hp, h6⟩
    · rcases polePairs_mem pole_indices pq hpq with ⟨hq1, hq2⟩
      rcases hS with rfl | rfl
      · exact Or.inr (Or.inl ⟨hq1, hq2⟩)
      · exact Or.inr (Or.inl ⟨hq2, hq1⟩)
  · rw [hS]
    exact Or.inr (Or.inr ⟨rfl, hp⟩)

/-! ### Claim theorems -/

/-- C1 (counterexample): in the 2-point scenario
`[(0,0) "Power Source", (0,0.001) "House"]` the source-to-destination
geodesic distance (≈ 111.19 m) satisfies the `(0.1, 150]` edge window, yet
the candidate graph built with zero poles contains no edge at all — in
particular not the claimed single direct source→destination edge. -/
theorem claim_C1_counterexample :
    ((1/10 : ℚ) < 11119/100 ∧ (11119/100 : ℚ) ≤ MAX_POLE_TO_POLE) ∧
    (build_directed_graph_for_arborescence 0 [1] []
      (fun _ _ => 11119/100)).edges = ∅ ∧
    ¬ (build_directed_graph_for_arborescence 0 [1] []
      (fun _ _ => 11119/100)).edges.card = 1 := by
  refine ⟨⟨by norm_num, by norm_num [MAX_POLE_TO_POLE]⟩, rfl, by decide⟩

/-- C1 (amended): when the candidate graph has zero poles, the builder emits
no edges (and no nodes) whatsoever: there is no direct source→destination
fallback, so every destination is unreachable, and the 2-point scenario
yields a graph with zero edges rather than one ≈111.2 m edge. -/
theorem claim_C1_zero_poles_empty_graph (source_idx : ℕ)
    (terminal_indices : List ℕ) (dist : ℕ → ℕ → ℚ) :
    (build_directed_graph_for_arborescence source_idx terminal_indices []
      dist).edges = ∅ ∧
    (build_directed_graph_for_arborescence source_idx terminal_indices []
      dist).nodes = ∅ :=
  ⟨rfl, rfl⟩

/-- C3 (confirmed): the builder never creates a destination→destination
edge (with terminal and pole index sets disjoint and the source not a
terminal, as `compute_mst` arranges), and therefore no subgraph of the
candidate graph — in particular the pruned arborescence — contains one. -/
theorem claim_C3_no_terminal_terminal_edge (source_idx : ℕ)
    (terminal_indices pole_indices : List ℕ) (dist : ℕ → ℕ → ℚ)
    (hdisj : ∀ x ∈ pole_indices, x ∉ terminal_indices)
    (hsrc : source_idx ∉ terminal_indices) :
    (∀ e ∈ (build_directed_graph_for_arborescence source_idx
        terminal_indices pole_indices dist).edges,
      ¬(e.1 ∈ terminal_indices ∧ e.2 ∈ terminal_indices)) ∧
    (∀ arbo : NetGraph,
      arbo.edges ⊆ (build_directed_graph_for_arborescence source_idx
        terminal_indices pole_indices dist).edges →
      ∀ e ∈ (prune_dead_end_pole_branches arbo pole_indices
          terminal_indices).edges,
        ¬(e.1 ∈ terminal_indices ∧ e.2 ∈ terminal_indices)) := by
  have hbuild : ∀ e ∈ (build_directed_graph_for_arborescence source_idx
      terminal_indices pole_indices dist).edges,
      ¬(e.1 ∈ terminal_indices ∧ e.2 ∈ terminal_indices) := by
    intro e he ⟨h1, h2⟩
    rcases build_edges_shape source_idx terminal_indices pole_indices dist
      e he with ⟨hp, _⟩ | ⟨_, hp⟩ | ⟨hs, _⟩
    · exact hdisj e.1 hp h1
    · exact hdisj e.2 hp h2
    · exact hsrc (hs ▸ h1)
  refine ⟨hbuild, fun arbo hsub e he => ?_⟩
  have hsub2 := (prune_master arbo pole_indices terminal_indices).2.1
  exact hbuild e (hsub (hsub2 he))

/-- Witness for C3 at a concrete input: source 0, one destination 1, one
pole 2, all pairwise distances 50 m. -/
theorem claim_C3_witness :
    ((∀ x ∈ [2], x ∉ [1]) ∧ (0 : ℕ) ∉ [1]) ∧
    ((∀ e ∈ (build_directed_graph_for_arborescence 0 [1] [2]
        (fun i j => if i = j then 0 else 50)).edges,
      ¬(e.1 ∈ [1] ∧ e.2 ∈ [1])) ∧
    (∀ arbo : NetGraph,
      arbo.edges ⊆ (build_directed_graph_for_arborescence 0 [1] [2]
        (fun i j => if i = j then 0 else 50)).edges →
      ∀ e ∈ (prune_dead_end_pole_branches arbo [2] [1]).edges,
        ¬(e.1 ∈ [1] ∧ e.2 ∈ [1]))) :=
  ⟨⟨by decide, by decide⟩,
    claim_C3_no_terminal_terminal_edge 0 [1] [2]
      (fun i j => if i = j then 0 else 50) (by decide) (by decide)⟩

/-- C5 (confirmed): pruning is idempotent — for every directed graph and
every choice of pole and terminal index lists, pruning the pruner's own
output returns a graph with the same nodes and the same edges. -/
theorem claim_C5_prune_idempotent (G : NetGraph) (ps ts : List ℕ) :
    (prune_dead_end_pole_branches (prune_dead_end_pole_branches G ps ts)
        ps ts).nodes = (prune_dead_end_pole_branches G ps ts).nodes ∧
    (prune_dead_end_pole_branches (prune_dead_end_pole_branches G ps ts)
        ps ts).edges = (prune_dead_end_pole_branches G ps ts).edges := by
  have key : prune_dead_end_pole_branches
      (prune_dead_end_pole_branches G ps ts) ps ts
      = prune_dead_end_pole_branches G ps ts := by
    have h1 : prune_dead_end_pole_branches
        (prune_dead_end_pole_branches G ps ts) ps ts
        = pruneLoopFuel ps ts
            ((prune_dead_end_pole_branches G ps ts).nodes.card + 1)
            (prune_dead_end_pole_branches G ps ts) := rfl
    rw [h1, pruneLoopFuel_succ, prune_fix]
    simp
  rw [key]
  exact ⟨rfl, rfl⟩

/-- C2 (confirmed): if the solver hands the pruner an arborescence rooted at
the source (every non-source node with exactly one incoming edge, the
source with none, no cycles — the contract of
`nx.minimum_spanning_arborescence`), then in the pruned result every used
non-source node still has exactly one incoming edge, the source is never
the target of an edge, and the edge set contains no cycle. -/
theorem claim_C2_pruned_is_tree (G : NetGraph) (src : ℕ) (ps ts : List ℕ)
    (hwf : G.WellFormed)
    (hin : ∀ v ∈ G.nodes, v ≠ src → (G.inEdges v).card = 1)
    (hsrc : G.inEdges src = ∅)
    (hacy : G.Acyclic) :
    (∀ v ∈ (prune_dead_end_pole_branches G ps ts).usedNodes, v ≠ src →
      ((prune_dead_end_pole_branches G ps ts).inEdges v).card = 1) ∧
    (prune_dead_end_pole_branches G ps ts).inEdges src = ∅ ∧
    (prune_dead_end_pole_branches G ps ts).Acyclic := by
  obtain ⟨hn, he, hinp, hrem, hwfp⟩ := prune_master G ps ts
  have hwfP := hwfp hwf
  refine ⟨?_, ?_, ?_⟩
  · intro v hv hvsrc
    have hvP : v ∈ (prune_dead_end_pole_branches G ps ts).nodes := by
      rcases Finset.mem_union.mp hv with h | h
      · rcases Finset.mem_image.mp h with ⟨e, heP, rfl⟩
        exact (hwfP e heP).1
      · rcases Finset.mem_image.mp h with ⟨e, heP, rfl⟩
        exact (hwfP e heP).2
    rw [hinp v hvP]
    exact hin v (hn hvP) hvsrc
  · refine Finset.subset_empty.mp ?_
    rw [← hsrc]
    exact NetGraph.inEdges_subset_of_edges_subset he src
  · intro v hv hmem
    exact hacy v (hn hv) (NetGraph.descendants_mono_subgraph he v hmem)

/-- Witness for C2: the arborescence `0 → 2 → 1` with pole 2 and
terminal 1. -/
theorem claim_C2_witness :
    ((⟨{0, 1, 2}, {(0, 2), (2, 1)}⟩ : NetGraph).WellFormed ∧
      (∀ v ∈ (⟨{0, 1, 2}, {(0, 2), (2, 1)}⟩ : NetGraph).nodes, v ≠ 0 →
        ((⟨{0, 1, 2}, {(0, 2), (2, 1)}⟩ : NetGraph).inEdges v).card = 1) ∧
      (⟨{0, 1, 2}, {(0, 2), (2, 1)}⟩ : NetGraph).inEdges 0 = ∅ ∧
      (⟨{0, 1, 2}, {(0, 2), (2, 1)}⟩ : NetGraph).Acyclic) ∧
    ((∀ v ∈ (prune_dead_end_pole_branches
          ⟨{0, 1, 2}, {(0, 2), (2, 1)}⟩ [2] [1]).usedNodes, v ≠ 0 →
        ((prune_dead_end_pole_branches
          ⟨{0, 1, 2}, {(0, 2), (2, 1)}⟩ [2] [1]).inEdges v).card = 1) ∧
      (prune_dead_end_pole_branches
        ⟨{0, 1, 2}, {(0, 2), (2, 1)}⟩ [2] [1]).inEdges 0 = ∅ ∧
      (prune_dead_end_pole_branches
        ⟨{0, 1, 2}, {(0, 2), (2, 1)}⟩ [2] [1]).Acyclic) :=
  ⟨⟨by decide, by decide, by decide, by decide⟩,
    claim_C2_pruned_is_tree ⟨{0, 1, 2}, {(0, 2), (2, 1)}⟩ 0 [2] [1]
      (by decide) (by decide) (by decide) (by decide)⟩

/-- C4 (confirmed): pruning an arborescence rooted at the source whose
nodes are source/terminals/poles (disjointly) leaves every remaining pole
with at least one terminal among its descendants, keeps every terminal and
the source, and removes only pole nodes. -/
theorem claim_C4_prune_preserves (G : NetGraph) (src : ℕ) (ps ts : List ℕ)
    (hwf : G.WellFormed)
    (hsrc : G.inEdges src = ∅)
    (hacy : G.Acyclic)
    (hclass : ∀ v ∈ G.nodes, v = src ∨ v ∈ ts ∨ v ∈ ps)
    (hdisj : ∀ x ∈ ps, x ∉ ts)
    (hsp : src ∉ ps) :
    (∀ p ∈ (prune_dead_end_pole_branches G ps ts).nodes, p ∈ ps →
      ∃ t ∈ (prune_dead_end_pole_branches G ps ts).descendants p, t ∈ ts) ∧
    (∀ t ∈ ts, t ∈ G.nodes →
      t ∈ (prune_dead_end_pole_branches G ps ts).nodes) ∧
    (src ∈ G.nodes → src ∈ (prune_dead_end_pole_branches G ps ts).nodes) ∧
    (∀ x ∈ G.nodes, x ∉ (prune_dead_end_pole_branches G ps ts).nodes →
      x ∈ ps) := by
  obtain ⟨hn, he, hinp, hrem, hwfp⟩ := prune_master G ps ts
  have hwfP := hwfp hwf
  have hacyP : (prune_dead_end_pole_branches G ps ts).Acyclic := by
    intro v hv hmem
    exact hacy v (hn hv) (NetGraph.descendants_mono_subgraph he v hmem)
  refine ⟨?_, ?_, ?_, fun x hx hx2 => (hrem x hx hx2).1⟩
  · intro p hp hpps
    have hdeg : (prune_dead_end_pole_branches G ps ts).outDegree p ≠ 0 :=
      fun h0 => prune_no_dead_pole_leaf G ps ts hp hpps (hdisj p hpps) h0
    obtain ⟨s, hs, hsn, hs0⟩ := NetGraph.exists_sink _ hwfP hacyP hp
    rcases Finset.mem_insert.mp hs with rfl | hsdesc
    · exact absurd hs0 hdeg
    · rcases hclass s (hn hsn) with rfl | hsts | hsps
      · exfalso
        obtain ⟨e, heP, hes⟩ :=
          NetGraph.exists_inEdge_of_mem_descendants _ hsdesc
        have : e ∈ G.inEdges s := Finset.mem_filter.mpr ⟨he heP, hes⟩
        rw [hsrc] at this
        simp at this
      · exact ⟨s, hsdesc, hsts⟩
      · exact absurd hs0 (fun h0 =>
          prune_no_dead_pole_leaf G ps ts hsn hsps (hdisj s hsps) h0)
  · intro t hts htG
    by_contra hcon
    exact (hrem t htG hcon).2 hts
  · intro hsrcG
    by_contra hcon
    exact hsp (hrem src hsrcG hcon).1

/-- Witness for C4: the arborescence `0 → 2 → 1` (pole 2 keeps terminal 1
as a descendant; terminal 1 and source 0 survive). -/
theorem claim_C4_witness :
    ((⟨{0, 1, 2}, {(0, 2), (2, 1)}⟩ : NetGraph).WellFormed ∧
      (⟨{0, 1, 2}, {(0, 2), (2, 1)}⟩ : NetGraph).inEdges 0 = ∅ ∧
      (⟨{0, 1, 2}, {(0, 2), (2, 1)}⟩ : NetGraph).Acyclic ∧
      (∀ v ∈ (⟨{0, 1, 2}, {(0, 2), (2, 1)}⟩ : NetGraph).nodes,
        v = 0 ∨ v ∈ [1] ∨ v ∈ [2]) ∧
      (∀ x ∈ [2], x ∉ [1]) ∧ (0 : ℕ) ∉ [2]) ∧
    ((∀ p ∈ (prune_dead_end_pole_branches
          ⟨{0, 1, 2}, {(0, 2), (2, 1)}⟩ [2] [1]).nodes, p ∈ [2] →
        ∃ t ∈ (prune_dead_end_pole_branches
          ⟨{0, 1, 2}, {(0, 2), (2, 1)}⟩ [2] [1]).descendants p, t ∈ [1]) ∧
      (∀ t ∈ [1], t ∈ (⟨{0, 1, 2}, {(0, 2), (2, 1)}⟩ : NetGraph).nodes →
        t ∈ (prune_dead_end_pole_branches
          ⟨{0, 1, 2}, {(0, 2), (2, 1)}⟩ [2] [1]).nodes) ∧
      ((0 : ℕ) ∈ (⟨{0, 1, 2}, {(0, 2), (2, 1)}⟩ : NetGraph).nodes →
        (0 : ℕ) ∈ (prune_dead_end_pole_branches
          ⟨{0, 1, 2}, {(0, 2), (2, 1)}⟩ [2] [1]).nodes) ∧
      (∀ x ∈ (⟨{0, 1, 2}, {(0, 2), (2, 1)}⟩ : NetGraph).nodes,
        x ∉ (prune_dead_end_pole_branches
          ⟨{0, 1, 2}, {(0, 2), (2, 1)}⟩ [2] [1]).nodes → x ∈ [2])) :=
  ⟨⟨by decide, by decide, by decide, by decide, by decide, by decide⟩,
    claim_C4_prune_preserves ⟨{0, 1, 2}, {(0, 2), (2, 1)}⟩ 0 [2] [1]
      (by decide) (by decide) (by decide) (by decide) (by decide) (by decide)⟩

/-! ### Input-validation errors (C6) -/

/-- If any point in the remaining list is bad, the parse loop errors,
whatever the accumulated state. -/
lemma parseLoop_error_of_bad :
    ∀ (l : List PointIn) (i : ℕ) (cr : List (ℚ × ℚ)) (nr : List String)
      (src : Option ℕ), (∃ p ∈ l, badPoint p = true) →
      ∃ msg, parseLoop l i cr nr src = Except.error msg := by
  intro l
  induction l with
  | nil =>
    rintro i cr nr src ⟨p, hp, _⟩
    exact absurd hp (List.not_mem_nil p)
  | cons p rest ih =>
    rintro i cr nr src ⟨q, hq, hqbad⟩
    cases hla : p.lat? with
    | none =>
      exact ⟨"Point " ++ toString (i + 1) ++ " missing or invalid lat lng",
        by simp [parseLoop, hla]⟩
    | some la =>
      cases hln : p.lng? with
      | none =>
        exact ⟨"Point " ++ toString (i + 1) ++ " missing or invalid lat lng",
          by simp [parseLoop, hla, hln]⟩
      | some ln =>
        by_cases hrange : ¬(-90 ≤ la ∧ la ≤ 90) ∨ ¬(-180 ≤ ln ∧ ln ≤ 180)
        · refine ⟨"Point " ++ toString (i + 1) ++ " has invalid coordinates",
            ?_⟩
          simp only [parseLoop, hla, hln]
          rw [if_pos hrange]
        · have hrest : ∃ q ∈ rest, badPoint q = true := by
            rcases List.mem_cons.mp hq with rfl | hq2
            · exfalso
              have : badPoint q = false := by
                simp [badPoint, hla, hln]
                push_neg at hrange
                simp [hrange.1.1, hrange.1.2, hrange.2.1, hrange.2.2]
              rw [this] at hqbad
              exact Bool.false_ne_true hqbad
            · exact ⟨q, hq2, hqbad⟩
          by_cases hsrc2 : isSourceName (pointName i p) ∧ src = none
          · obtain ⟨msg, hmsg⟩ := ih (i + 1) ((la, ln) :: cr)
              ("Power ".append "Source" :: nr) (some i) hrest
            refine ⟨msg, ?_⟩
            simp only [parseLoop, hla, hln]
            rw [if_neg hrange, if_pos hsrc2]
            exact hmsg
          · obtain ⟨msg, hmsg⟩ := ih (i + 1) ((la, ln) :: cr)
              (pointName i p :: nr) src hrest
            refine ⟨msg, ?_⟩
            simp only [parseLoop, hla, hln]
            rw [if_neg hrange, if_neg hsrc2]
            exact hmsg

/-- C6 (confirmed): a request with fewer than 2 points, or containing a
point with missing/unconvertible `lat`/`lng` or an out-of-range coordinate,
makes `parse_input` raise; `compute_mst` then errors with the same message
for every candidate generator, arborescence solver and distance metric —
nothing downstream of parsing runs and no partial result is produced. -/
theorem claim_C6_invalid_input_rejected (points : List PointIn)
    (costsIn : Costs) (debug : Bool)
    (h : points.length < 2 ∨ ∃ p ∈ points, badPoint p = true) :
    ∃ msg, parse_input points costsIn = Except.error msg ∧
      ∀ (candGen : List (ℚ × ℚ) → List (ℚ × ℚ))
        (solver : NetGraph → Except String NetGraph)
        (distf : ℚ × ℚ → ℚ × ℚ → ℚ),
        compute_mst candGen solver distf points costsIn debug
          = Except.error msg := by
  have hparse : ∃ msg, parse_input points costsIn = Except.error msg := by
    by_cases hlen : points.length < 2
    · exact ⟨"At least 2 points required", by simp [parse_input, hlen]⟩
    · rcases h with h | h
      · exact absurd h hlen
      · obtain ⟨msg, hmsg⟩ := parseLoop_error_of_bad points 0 [] [] none h
        refine ⟨msg, ?_⟩
        simp only [parse_input]
        rw [if_neg hlen, hmsg]
  obtain ⟨msg, hmsg⟩ := hparse
  refine ⟨msg, hmsg, fun candGen solver distf => ?_⟩
  simp only [compute_mst]
  rw [hmsg]

/-- Witness for C6: a 2-point request whose first point has latitude 100
(out of range). -/
theorem claim_C6_witness :
    (([⟨some 100, some 0, none⟩, ⟨some 0, some 0, none⟩] :
        List PointIn).length < 2 ∨
      ∃ p ∈ ([⟨some 100, some 0, none⟩, ⟨some 0, some 0, none⟩] :
        List PointIn), badPoint p = true) ∧
    (∃ msg, parse_input [⟨some 100, some 0, none⟩, ⟨some 0, some 0, none⟩]
        ⟨none, none, none⟩ = Except.error msg ∧
      ∀ (candGen : List (ℚ × ℚ) → List (ℚ × ℚ))
        (solver : NetGraph → Except String NetGraph)
        (distf : ℚ × ℚ → ℚ × ℚ → ℚ),
        compute_mst candGen solver distf
          [⟨some 100, some 0, none⟩, ⟨some 0, some 0, none⟩]
          ⟨none, none, none⟩ true = Except.error msg) :=
  ⟨Or.inr ⟨⟨some 100, some 0, none⟩, by decide, by decide⟩,
    claim_C6_invalid_input_rejected _ _ true
      (Or.inr ⟨⟨some 100, some 0, none⟩, by decide, by decide⟩)⟩

/-! ### Numerical safety of `haversine_meters` (C7) -/

/-- C7: in exact real arithmetic the haversine intermediate `a` always lies
in `[0, 1]`, so both `sqrt(a)` and `sqrt(1 - a)` have nonnegative
arguments.  The Python code relies on this analytical fact and performs no
clamping of `a`; the margin is zero at antipodal points, which is exactly
where IEEE-754 double rounding pushes the computed `a` above `1` and
`math.sqrt(1 - a)` raises a domain error (see the C7 analysis). -/
theorem claim_C7_sqrt_args_nonneg (lat1 lng1 lat2 lng2 : ℝ) :
    0 ≤ haversine_a lat1 lng1 lat2 lng2 ∧
      0 ≤ 1 - haversine_a lat1 lng1 lat2 lng2 := by
  have hphi : radians (lat2 - lat1) = radians lat2 - radians lat1 := by
    unfold radians
    ring
  set x1 := radians lat1 with hx1
  set x2 := radians lat2 with hx2
  have hhalf := Real.sin_sq_eq_half_sub ((x2 - x1) / 2)
  rw [show 2 * ((x2 - x1) / 2) = x2 - x1 by ring] at hhalf
  have hcs : Real.cos (x2 - x1)
      = Real.cos x2 * Real.cos x1 + Real.sin x2 * Real.sin x1 :=
    Real.cos_sub x2 x1
  have hca : Real.cos (x2 + x1)
      = Real.cos x2 * Real.cos x1 - Real.sin x2 * Real.sin x1 :=
    Real.cos_add x2 x1
  have hc1 : -1 ≤ Real.cos (x2 - x1) := Real.neg_one_le_cos _
  have hc2 : Real.cos (x2 - x1) ≤ 1 := Real.cos_le_one _
  have hd1 : -1 ≤ Real.cos (x2 + x1) := Real.neg_one_le_cos _
  have hd2 : Real.cos (x2 + x1) ≤ 1 := Real.cos_le_one _
  have hs0 : (0:ℝ) ≤ Real.sin (radians (lng2 - lng1) / 2) ^ 2 := sq_nonneg _
  have hs1 : Real.sin (radians (lng2 - lng1) / 2) ^ 2 ≤ 1 :=
    Real.sin_sq_le_one _
  unfold haversine_a
  rw [hphi, ← hx1, ← hx2, hhalf]
  constructor
  · nlinarith [mul_nonneg (by linarith : (0:ℝ) ≤ 1 -
        Real.sin (radians (lng2 - lng1) / 2) ^ 2)
        (by linarith : (0:ℝ) ≤ 1 - Real.cos (x2 - x1)),
      mul_nonneg hs0 (by linarith : (0:ℝ) ≤ 1 + Real.cos (x2 + x1))]
  · nlinarith [mul_nonneg (by linarith : (0:ℝ) ≤ 1 -
        Real.sin (radians (lng2 - lng1) / 2) ^ 2)
        (by linarith : (0:ℝ) ≤ 1 + Real.cos (x2 - x1)),
      mul_nonneg hs0 (by linarith : (0:ℝ) ≤ 1 - Real.cos (x2 + x1))]


/-! ### Node classification in the output (C8) -/

/-- C8 (counterexample): in the non-debug nodes list the used non-source
original point is typed `"terminal"`, not `"destination"`; `"terminal"` is
outside the claimed set `{"source", "destination", "pole"}`. -/
theorem claim_C8_counterexample :
    ((returnNodesUsed (Finset.range 2) 0 2 ["Power Source", "House"] []
        [(0, 0), (0, 1)]).map (fun n => n.type))
      = ["source", "terminal"] ∧
    ("terminal" : String) ∉
      (["source", "destination", "pole"] : List String) := by
  constructor
  · rw [returnNodesUsed, Finset.sort_range]
    rfl
  · decide

/-- C8 (amended): every node emitted by the non-debug nodes list has type
`"source"`, `"terminal"` or `"pole"`; the source index gets `"source"`, and
every used non-source original point (index below `pole_start_idx`) gets
`"terminal"`. -/
theorem claim_C8_node_types (used : Finset ℕ)
    (source_idx pole_start_idx : ℕ) (original_names : List String)
    (used_pole_indices : List ℕ) (extended_coords : List (ℚ × ℚ)) :
    ∀ n ∈ returnNodesUsed used source_idx pole_start_idx original_names
        used_pole_indices extended_coords,
      (n.type = "source" ∨ n.type = "terminal" ∨ n.type = "pole") ∧
      (n.index = source_idx → n.type = "source") ∧
      (n.index ≠ source_idx → n.index < pole_start_idx →
        n.type = "terminal") := by
  intro n hn
  rcases List.mem_map.mp hn with ⟨i, _, rfl⟩
  dsimp only
  unfold nodeType
  refine ⟨?_, ?_, ?_⟩
  · split_ifs
    · exact Or.inl rfl
    · exact Or.inr (Or.inl rfl)
    · exact Or.inr (Or.inr rfl)
  · intro h1
    rw [if_pos h1]
  · intro h1 h2
    rw [if_neg h1, if_pos h2]

/-- Witness for C8 (amended): node 1 of a 2-point run is a used non-source
original point and is typed `"terminal"`. -/
theorem claim_C8_witness :
    (⟨1, 0, 1, "House", "terminal"⟩ : NodeOut) ∈
      returnNodesUsed (Finset.range 2) 0 2 ["Power Source", "House"] []
        [(0, 0), (0, 1)] ∧
    (((⟨1, 0, 1, "House", "terminal"⟩ : NodeOut).type = "source" ∨
      (⟨1, 0, 1, "House", "terminal"⟩ : NodeOut).type = "terminal" ∨
      (⟨1, 0, 1, "House", "terminal"⟩ : NodeOut).type = "pole") ∧
     ((⟨1, 0, 1, "House", "terminal"⟩ : NodeOut).index = 0 →
      (⟨1, 0, 1, "House", "terminal"⟩ : NodeOut).type = "source") ∧
     ((⟨1, 0, 1, "House", "terminal"⟩ : NodeOut).index ≠ 0 →
      (⟨1, 0, 1, "House", "terminal"⟩ : NodeOut).index < 2 →
      (⟨1, 0, 1, "House", "terminal"⟩ : NodeOut).type = "terminal")) :=
  ⟨by rw [returnNodesUsed, Finset.sort_range]; decide,
    claim_C8_node_types (Finset.range 2) 0 2 ["Power Source", "House"] []
      [(0, 0), (0, 1)] ⟨1, 0, 1, "House", "terminal"⟩
      (by rw [returnNodesUsed, Finset.sort_range]; decide)⟩

/-! ### Cost aggregation and rounding (C9) -/

lemma roundHalfEven_eq_of_lt_half {x : ℚ} {n : ℤ} (h1 : (n : ℚ) ≤ x)
    (h2 : x - n < 1/2) : roundHalfEven x = n := by
  have hfl : ⌊x⌋ = n := by
    rw [Int.floor_eq_iff]
    exact ⟨h1, by linarith⟩
  simp only [roundHalfEven, hfl]
  rw [if_pos h2]

lemma roundHalfEven_eq_of_gt_half {x : ℚ} {n : ℤ} (h1 : (n : ℚ) ≤ x)
    (h0 : 1/2 < x - n) (h2 : x < n + 1) : roundHalfEven x = n + 1 := by
  have hfl : ⌊x⌋ = n := by
    rw [Int.floor_eq_iff]
    exact ⟨h1, by linarith⟩
  simp only [roundHalfEven, hfl]
  rw [if_neg (by linarith), if_pos h0]

lemma roundHalfEven_close (y : ℚ) : |(roundHalfEven y : ℚ) - y| ≤ 1/2 := by
  have hf1 : (⌊y⌋ : ℚ) ≤ y := Int.floor_le y
  have hf2 : y < ⌊y⌋ + 1 := Int.lt_floor_add_one y
  simp only [roundHalfEven]
  split_ifs with h1 h2 h3
  · rw [abs_le]
    constructor <;> linarith
  · rw [abs_le]
    constructor <;> push_cast <;> linarith
  · rw [abs_le]
    constructor <;> linarith
  · rw [abs_le]
    constructor <;> push_cast <;> linarith

lemma round2_close (x : ℚ) : |round2 x - x| ≤ 1/200 := by
  have h := roundHalfEven_close (x * 100)
  have heq : round2 x - x
      = ((roundHalfEven (x * 100) : ℚ) - x * 100) / 100 := by
    unfold round2
    ring
  rw [heq, abs_div, abs_of_pos (by norm_num : (0:ℚ) < 100)]
  linarith

/-- C9 (counterexample): with one pole at unit cost 1.004 and 1.004 m of
low-voltage wire at 1 per metre, `totalCostEstimate` is 2.01 (the rounding
of the exact total 2.008) while the sum of the returned
`poleCostEstimate + lowWireCostEstimate + highWireCostEstimate` fields is
1.0 + 1.0 + 0.0 = 2.0: the claimed exact equality fails. -/
theorem claim_C9_counterexample :
    ¬ ((costSummary 1 (1004/1000) 0
        ⟨some (1004/1000), some 1, some 1⟩).totalCostEstimate
      = (costSummary 1 (1004/1000) 0
          ⟨some (1004/1000), some 1, some 1⟩).poleCostEstimate
        + (costSummary 1 (1004/1000) 0
            ⟨some (1004/1000), some 1, some 1⟩).lowWireCostEstimate
        + (costSummary 1 (1004/1000) 0
            ⟨some (1004/1000), some 1, some 1⟩).highWireCostEstimate) := by
  have hpole : (costSummary 1 (1004/1000) 0
      ⟨some (1004/1000), some 1, some 1⟩).poleCostEstimate = 1 := by
    simp only [costSummary, Option.getD_some]
    rw [show ((1:ℕ) : ℚ) * (1004/1000) = 1004/1000 by norm_num]
    unfold round2
    rw [roundHalfEven_eq_of_lt_half (n := 100)
      (by norm_num) (by push_cast; norm_num)]
    norm_num
  have hlow : (costSummary 1 (1004/1000) 0
      ⟨some (1004/1000), some 1, some 1⟩).lowWireCostEstimate = 1 := by
    simp only [costSummary, Option.getD_some]
    rw [show (1004/1000 : ℚ) * 1 = 1004/1000 by norm_num]
    unfold round2
    rw [roundHalfEven_eq_of_lt_half (n := 100)
      (by norm_num) (by push_cast; norm_num)]
    norm_num
  have hhigh : (costSummary 1 (1004/1000) 0
      ⟨some (1004/1000), some 1, some 1⟩).highWireCostEstimate = 0 := by
    simp only [costSummary, Option.getD_some]
    rw [show (0 : ℚ) * 1 = 0 by norm_num]
    unfold round2
    rw [roundHalfEven_eq_of_lt_half (n := 0)
      (by norm_num) (by push_cast; norm_num)]
    norm_num
  have htot : (costSummary 1 (1004/1000) 0
      ⟨some (1004/1000), some 1, some 1⟩).totalCostEstimate = 201/100 := by
    simp only [costSummary, Option.getD_some]
    rw [show ((1:ℕ) : ℚ) * (1004/1000) + ((1004/1000) * 1 + 0 * 1)
      = 2008/1000 by norm_num]
    unfold round2
    rw [roundHalfEven_eq_of_gt_half (n := 200)
      (by norm_num) (by push_cast; norm_num) (by push_cast; norm_num)]
    norm_num
  intro h
  rw [hpole, hlow, hhigh, htot] at h
  norm_num at h

/-- C9 (amended): `totalCostEstimate` is the 2-decimal rounding of the
exact (pre-rounding) sum of the three estimates; it therefore agrees with
the sum of the three individually rounded returned fields only up to the
accumulated rounding error, which is at most 0.02. -/
theorem claim_C9_total_cost (numPoles : ℕ) (totalLow totalHigh : ℚ)
    (costs : Costs) :
    (costSummary numPoles totalLow totalHigh costs).totalCostEstimate
      = round2 ((numPoles : ℚ) * costs.poleCost?.getD 1500
          + (totalLow * costs.lowVoltageCostPerMeter?.getD 8
            + totalHigh * costs.highVoltageCostPerMeter?.getD 25)) ∧
    |(costSummary numPoles totalLow totalHigh costs).totalCostEstimate
      - ((costSummary numPoles totalLow totalHigh costs).poleCostEstimate
        + (costSummary numPoles totalLow totalHigh costs).lowWireCostEstimate
        + (costSummary numPoles totalLow totalHigh
            costs).highWireCostEstimate)| ≤ 1/50 := by
  constructor
  · rfl
  · have ha := round2_close ((numPoles : ℚ) * costs.poleCost?.getD 1500)
    have hb := round2_close (totalLow * costs.lowVoltageCostPerMeter?.getD 8)
    have hc := round2_close
      (totalHigh * costs.highVoltageCostPerMeter?.getD 25)
    have hs := round2_close ((numPoles : ℚ) * costs.poleCost?.getD 1500
      + (totalLow * costs.lowVoltageCostPerMeter?.getD 8
        + totalHigh * costs.highVoltageCostPerMeter?.getD 25))
    simp only [costSummary]
    rw [abs_le] at ha hb hc hs ⊢
    constructor <;> linarith

/-! ### Debug nodes list (C10) -/

/-- C10 (confirmed): with the debug flag, the returned nodes list
enumerates the whole extended coordinate set (original points and all
candidates, used or pruned) in order, and gives every entry type `"pole"`
and name `Candidate {index}`. -/
theorem claim_C10_debug_nodes (extended_coords : List (ℚ × ℚ)) :
    ((returnNodesDebug extended_coords).map (fun n => (n.lat, n.lng))
      = extended_coords) ∧
    ((returnNodesDebug extended_coords).map (fun n => n.index)
      = List.range extended_coords.length) ∧
    (∀ n ∈ returnNodesDebug extended_coords,
      n.type = "pole" ∧ n.name = "Candidate " ++ toString n.index) := by
  refine ⟨?_, ?_, ?_⟩
  · unfold returnNodesDebug
    rw [List.map_map]
    have hfun : ((fun n : NodeOut => (n.lat, n.lng)) ∘
        (fun ic : ℕ × ℚ × ℚ =>
          (⟨ic.1, ic.2.1, ic.2.2, "Candidate " ++ toString ic.1, "pole"⟩ :
            NodeOut))) = Prod.snd := by
      funext ic
      simp
    rw [hfun]
    simp
  · unfold returnNodesDebug
    rw [List.map_map]
    have hfun : ((fun n : NodeOut => n.index) ∘
        (fun ic : ℕ × ℚ × ℚ =>
          (⟨ic.1, ic.2.1, ic.2.2, "Candidate " ++ toString ic.1, "pole"⟩ :
            NodeOut))) = Prod.fst := by
      funext ic
      rfl
    rw [hfun]
    simp
  · intro n hn
    rcases List.mem_map.mp hn with ⟨ic, _, rfl⟩
    exact ⟨rfl, rfl⟩

/-- Witness for C10: one extended coordinate produces the single node
`Candidate 0` of type `"pole"`. -/
theorem claim_C10_witness :
    (⟨0, 1, 2, "Candidate 0", "pole"⟩ : NodeOut) ∈
      returnNodesDebug [(1, 2)] ∧
    ((⟨0, 1, 2, "Candidate 0", "pole"⟩ : NodeOut).type = "pole" ∧
      (⟨0, 1, 2, "Candidate 0", "pole"⟩ : NodeOut).name
        = "Candidate " ++ toString
            (⟨0, 1, 2, "Candidate 0", "pole"⟩ : NodeOut).index) :=
  ⟨by decide, (claim_C10_debug_nodes [(1, 2)]).2.2 _ (by decide)⟩
